import Mathlib

/-!
# Pokedex: the TTL cache of `internal/pokecache/pokecache.go`

A shallow embedding of the cache (`cacheEntry`, `Cache`, `Add`, `NewCache`,
`Get`, `reapLoop`) and the properties of its specification.

Modelling conventions.

* `time.Time` values are readings of the monotonic clock, in nanoseconds, and
  `time.Duration` is a number of nanoseconds; both are integers. Two readings
  of the monotonic clock differ by less than `2^63`, so the subtraction in
  `time.Since` never saturates and is plain integer subtraction.
* `time.Now()` is an input of the operation that calls it: `Add` and a sweep
  pass take the clock reading as the argument `now`. A sweep pass is taken to
  be instantaneous: every `time.Since` of one pass sees the same reading.
* `map[string]cacheEntry` is an association list; assignment, lookup and
  `delete` are `mapAssign`, `mapLookup`, `mapDelete`.
* Every operation holds `c.mu` for its whole body, so each `Add`, `Get` and
  sweep pass is one atomic step on the cache state; a run of the system is a
  list of such steps (`Op`, `run`).
* `[]byte` is `Option (List UInt8)`, with `none` the nil slice.
-/

namespace Pokecache

/-- A Go byte slice; `none` is the nil slice. -/
abbrev Bytes := Option (List UInt8)

/-- The struct `cacheEntry`. -/
structure cacheEntry where
  createdAt : Int
  val : Bytes
deriving DecidableEq, Repr

/-- The struct `Cache` (the mutex is the atomicity of the steps). -/
structure Cache where
  items : List (String × cacheEntry)
  interval : Int
deriving DecidableEq, Repr

/-- Map read `entry, ok := m[key]`. -/
def mapLookup : List (String × cacheEntry) → String → Option cacheEntry
  | [], _ => none
  | (k, e) :: rest, key => if k = key then some e else mapLookup rest key

/-- Map removal `delete(m, key)`. -/
def mapDelete (m : List (String × cacheEntry)) (key : String) :
    List (String × cacheEntry) :=
  m.filter (fun p => decide (p.1 ≠ key))

/-- Map assignment `m[key] = entry`. -/
def mapAssign (m : List (String × cacheEntry)) (key : String) (entry : cacheEntry) :
    List (String × cacheEntry) :=
  (key, entry) :: mapDelete m key

/-- The keys of a map, in the order a `range` loop visits them. -/
def mapKeys (m : List (String × cacheEntry)) : List String :=
  m.map Prod.fst

/-- The call `time.Since(t)` when the clock reads `now`. -/
def Since (now t : Int) : Int :=
  now - t

/-- The method `Add`; `now` is what `time.Now()` returns. -/
def Cache.Add (c : Cache) (key : String) (val : Bytes) (now : Int) : Cache :=
  let entry : cacheEntry := { createdAt := now, val := val }
  { c with items := mapAssign c.items key entry }

/-- The function `NewCache`, without the goroutine it starts (see `reapLoop`). -/
def NewCache (interval : Int) : Cache :=
  { items := [], interval := interval }

/-- The method `Get`: the returned pair and the cache state after the call. -/
def Cache.Get (c : Cache) (key : String) : (Bytes × Bool) × Cache :=
  match mapLookup c.items key with
  | some entry => ((entry.val, true), c)
  | none => ((none, false), c)

/-- The body of the `range c.items` loop of `reapLoop` for one key: a key whose
entry was deleted before being reached is not produced. -/
def reapEntry (now : Int) (c : Cache) (key : String) : Cache :=
  match mapLookup c.items key with
  | some entry =>
    if Since now entry.createdAt > c.interval then
      { c with items := mapDelete c.items key }
    else c
  | none => c

/-- One pass of the `range c.items` loop of `reapLoop`, visiting the keys in
the given order (Go leaves the order unspecified). -/
def reapOver (c : Cache) (now : Int) (order : List String) : Cache :=
  order.foldl (reapEntry now) c

/-- One sweep pass: the locked section of `reapLoop` run when the clock reads `now`. -/
def Cache.reapPass (c : Cache) (now : Int) : Cache :=
  reapOver c now (mapKeys c.items)

/-- The library call `time.NewTicker(d)`: it panics when `d` is not positive. -/
def NewTicker (d : Int) : Except String Unit :=
  if d ≤ 0 then .error "non-positive interval for NewTicker" else .ok ()

/-- The method `reapLoop` run on its own through the ticks delivered at the
given clock readings: the ticker is created, then each tick runs one pass. -/
def Cache.reapLoop (c : Cache) (ticks : List Int) : Except String Cache :=
  match NewTicker c.interval with
  | .error msg => .error msg
  | .ok _ => .ok (ticks.foldl Cache.reapPass c)

/-- An atomic step of the system: a call of `Add`, a call of `Get`, or one
sweep pass of the background goroutine. -/
inductive Op where
  | add (key : String) (val : Bytes) (now : Int)
  | get (key : String)
  | reap (now : Int)
deriving DecidableEq, Repr

/-- The cache state after one step. -/
def step (c : Cache) : Op → Cache
  | .add key val now => c.Add key val now
  | .get key => (c.Get key).2
  | .reap now => c.reapPass now

/-- The cache state after a sequence of steps. -/
def run (c : Cache) (ops : List Op) : Cache :=
  ops.foldl step c

/-- Whether the step is an `Add` of the given key. -/
def Op.addsKey (key : String) : Op → Bool
  | .add k _ _ => decide (k = key)
  | _ => false

/-! ## Runs, schedules and the quantities the specification speaks of -/

/-- Whether the step is a sweep pass. -/
def Op.isReap : Op → Bool
  | .reap _ => true
  | _ => false

/-- Whether an entry survives a sweep pass at clock reading `now` with ttl `T`. -/
def fresh (now T : Int) (e : cacheEntry) : Bool :=
  decide (Since now e.createdAt ≤ T)

/-- The results of `n` successive calls `Get(key)` and the cache state after them. -/
def getRepeat (c : Cache) (key : String) : Nat → List (Bytes × Bool) × Cache
  | 0 => ([], c)
  | n + 1 =>
    let r := c.Get key
    let rest := getRepeat r.2 key n
    (r.1 :: rest.1, rest.2)

/-- The key a step is about; a sweep pass is about none. -/
def Op.key : Op → Option String
  | .add key _ _ => some key
  | .get key => some key
  | .reap _ => none

/-- The value passed to the most recent `Add` of `key` in a sequence of steps. -/
def lastAdded (key : String) : List Op → Option Bytes
  | [] => none
  | op :: rest =>
    match lastAdded key rest with
    | some v => some v
    | none =>
      match op with
      | .add k v _ => if k = key then some v else none
      | _ => none

/-- What `Get` is specified to return when the most recent `Add` of the key
stored the given value, or when there was none. -/
def expectedGet : Option Bytes → Bytes × Bool
  | some v => (v, true)
  | none => (none, false)

/-- The steps of caller `i` in an interleaving of the steps of several callers. -/
def project (i : Nat) (tr : List (Nat × Op)) : List Op :=
  (tr.filter (fun a => decide (a.1 = i))).map Prod.snd

/-- Whether the callers of an interleaving work on pairwise disjoint key sets:
two steps about the same key belong to the same caller. -/
def disjointKeys (tr : List (Nat × Op)) : Bool :=
  tr.all (fun a => tr.all (fun b =>
    decide (a.1 = b.1) || decide (a.2.key = none) || decide (a.2.key ≠ b.2.key)))

/-- Whether a step is not a sweep pass that runs after the clock reading `deadline`. -/
def Op.noReapAfter (deadline : Int) : Op → Bool
  | .reap now => decide (now ≤ deadline)
  | _ => true

/-- The number of sweep passes in a sequence of steps. -/
def sweepCount : List Op → Nat
  | [] => 0
  | .reap _ :: rest => sweepCount rest + 1
  | _ :: rest => sweepCount rest

/-- Whether the steps follow the ticker of a cache constructed at clock reading
`c0` with ttl `T`, `s` passes having run before them: pass number `n` runs
exactly when the clock reads `c0 + n * T`, and an `Add` reads the clock no
earlier than the last pass run and no later than the next pass due. -/
def onSchedule (c0 T : Int) : Nat → List Op → Bool
  | _, [] => true
  | s, .add _ _ now :: rest =>
    decide (c0 + (s : Int) * T ≤ now ∧ now ≤ c0 + ((s : Int) + 1) * T) &&
      onSchedule c0 T s rest
  | s, .get _ :: rest => onSchedule c0 T s rest
  | s, .reap now :: rest =>
    decide (now = c0 + ((s : Int) + 1) * T) && onSchedule c0 T (s + 1) rest

/-- The clock reading of the first sweep pass among the steps that deletes the
entry of `key`; `none` when no pass does. -/
def evictedAt (key : String) : Cache → List Op → Option Int
  | _, [] => none
  | c, .reap now :: rest =>
    if (mapLookup c.items key).isSome && (mapLookup (c.reapPass now).items key).isNone then
      some now
    else evictedAt key (c.reapPass now) rest
  | c, op :: rest => evictedAt key (step c op) rest

/-! ## Lemmas on the map primitives -/

theorem mapLookup_eq_none_iff (m : List (String × cacheEntry)) (key : String) :
    mapLookup m key = none ↔ key ∉ mapKeys m := by
  induction m with
  | nil => simp [mapLookup, mapKeys]
  | cons p rest ih =>
    obtain ⟨k, e⟩ := p
    by_cases h : k = key
    · simp [mapLookup, mapKeys, h]
    · have h2 : ¬ key = k := fun h3 => h h3.symm
      simpa [mapLookup, mapKeys, h, h2] using ih

theorem mapLookup_mem (m : List (String × cacheEntry)) (key : String) (e : cacheEntry)
    (h : mapLookup m key = some e) : (key, e) ∈ m := by
  induction m with
  | nil => simp [mapLookup] at h
  | cons p rest ih =>
    obtain ⟨k, e2⟩ := p
    by_cases hk : k = key
    · simp [mapLookup, hk] at h
      simp [hk, h]
    · simp [mapLookup, hk] at h
      exact List.mem_cons_of_mem _ (ih h)

theorem mapLookup_of_mem (m : List (String × cacheEntry)) (key : String) (e : cacheEntry)
    (hnd : (mapKeys m).Nodup) (h : (key, e) ∈ m) : mapLookup m key = some e := by
  induction m with
  | nil => simp at h
  | cons p rest ih =>
    obtain ⟨k, e2⟩ := p
    simp only [mapKeys, List.map_cons, List.nodup_cons] at hnd
    rcases List.mem_cons.1 h with h1 | h1
    · simp only [Prod.mk.injEq] at h1
      simp [mapLookup, h1.1, h1.2]
    · have hne : k ≠ key := by
        intro hk
        apply hnd.1
        rw [hk]
        exact List.mem_map_of_mem Prod.fst h1
      simp only [mapLookup, hne, if_false]
      exact ih hnd.2 h1

theorem mapLookup_delete_self (m : List (String × cacheEntry)) (key : String) :
    mapLookup (mapDelete m key) key = none := by
  rw [mapLookup_eq_none_iff]
  simp [mapKeys, mapDelete, List.mem_filter]

theorem mapLookup_delete_ne (m : List (String × cacheEntry)) (key k : String)
    (h : k ≠ key) : mapLookup (mapDelete m key) k = mapLookup m k := by
  induction m with
  | nil => simp [mapDelete, mapLookup]
  | cons p rest ih =>
    obtain ⟨k2, e⟩ := p
    by_cases h2 : k2 = key
    · have h3 : k2 ≠ k := fun h4 => h (h4.symm.trans h2)
      have h5 : mapDelete ((k2, e) :: rest) key = mapDelete rest key := by
        simp [mapDelete, h2]
      rw [h5, ih]
      simp [mapLookup, h3]
    · have h5 : mapDelete ((k2, e) :: rest) key = (k2, e) :: mapDelete rest key := by
        simp [mapDelete, h2]
      rw [h5]
      simp only [mapLookup, ih]

theorem mapLookup_assign_self (m : List (String × cacheEntry)) (key : String)
    (e : cacheEntry) : mapLookup (mapAssign m key e) key = some e := by
  simp [mapAssign, mapLookup]

theorem mapLookup_assign_ne (m : List (String × cacheEntry)) (key k : String)
    (e : cacheEntry) (h : k ≠ key) :
    mapLookup (mapAssign m key e) k = mapLookup m k := by
  have h2 : key ≠ k := fun h3 => h h3.symm
  simp [mapAssign, mapLookup, h2, mapLookup_delete_ne m key k h]

theorem nodup_mapDelete (m : List (String × cacheEntry)) (key : String)
    (hnd : (mapKeys m).Nodup) : (mapKeys (mapDelete m key)).Nodup := by
  unfold mapKeys mapDelete
  exact hnd.sublist ((List.filter_sublist m).map Prod.fst)

theorem nodup_mapAssign (m : List (String × cacheEntry)) (key : String) (e : cacheEntry)
    (hnd : (mapKeys m).Nodup) : (mapKeys (mapAssign m key e)).Nodup := by
  have h1 := nodup_mapDelete m key hnd
  have h2 := (mapLookup_eq_none_iff (mapDelete m key) key).1 (mapLookup_delete_self m key)
  simp only [mapAssign, mapKeys, List.map_cons, List.nodup_cons]
  exact ⟨h2, h1⟩

/-! ## Lemmas on the sweep pass -/

theorem interval_reapEntry (now : Int) (c : Cache) (key : String) :
    (reapEntry now c key).interval = c.interval := by
  unfold reapEntry
  split
  · split <;> rfl
  · rfl

theorem interval_reapOver (now : Int) (order : List String) (c : Cache) :
    (reapOver c now order).interval = c.interval := by
  induction order generalizing c with
  | nil => rfl
  | cons key rest ih =>
    have h := ih (reapEntry now c key)
    rw [interval_reapEntry] at h
    exact h

theorem mapLookup_reapEntry (now : Int) (c : Cache) (key k : String) :
    mapLookup (reapEntry now c key).items k =
      if k = key then (mapLookup c.items k).filter (fresh now c.interval)
      else mapLookup c.items k := by
  unfold reapEntry
  by_cases hk : k = key
  · subst hk
    simp only [if_true]
    cases hl : mapLookup c.items k with
    | none => simp [hl]
    | some e =>
      by_cases hs : Since now e.createdAt > c.interval
      · have hf : fresh now c.interval e = false := by
          simp only [fresh, decide_eq_false_iff_not, not_le]
          exact hs
        simp [hs, hf, Option.filter, mapLookup_delete_self]
      · have hf : fresh now c.interval e = true := by
          simp only [fresh, decide_eq_true_eq]
          exact not_lt.1 hs
        simp [hs, hf, Option.filter, hl]
  · simp only [hk, if_false]
    cases hl : mapLookup c.items key with
    | none => rfl
    | some e =>
      by_cases hs : Since now e.createdAt > c.interval
      · simp [hs, mapLookup_delete_ne c.items key k hk]
      · simp [hs]

theorem option_filter_filter (p : cacheEntry → Bool) (o : Option cacheEntry) :
    (o.filter p).filter p = o.filter p := by
  cases o with
  | none => rfl
  | some e =>
    cases h : p e <;> simp [Option.filter, h]

theorem mapLookup_reapOver (now : Int) (order : List String) (c : Cache) (k : String) :
    mapLookup (reapOver c now order).items k =
      if k ∈ order then (mapLookup c.items k).filter (fresh now c.interval)
      else mapLookup c.items k := by
  induction order generalizing c with
  | nil => simp [reapOver]
  | cons key rest ih =>
    have h := ih (reapEntry now c key)
    rw [interval_reapEntry, mapLookup_reapEntry] at h
    have h2 : reapOver c now (key :: rest) = reapOver (reapEntry now c key) now rest := rfl
    rw [h2, h]
    by_cases hk : k = key
    · subst hk
      simp [option_filter_filter]
    · by_cases hr : k ∈ rest
      · simp [hk, hr]
      · simp [hk, hr]

theorem mapLookup_reapPass (now : Int) (c : Cache) (k : String) :
    mapLookup (c.reapPass now).items k =
      (mapLookup c.items k).filter (fresh now c.interval) := by
  unfold Cache.reapPass
  rw [mapLookup_reapOver]
  by_cases hk : k ∈ mapKeys c.items
  · simp [hk]
  · have h := (mapLookup_eq_none_iff c.items k).2 hk
    simp [hk, h]

theorem interval_reapPass (now : Int) (c : Cache) :
    (c.reapPass now).interval = c.interval :=
  interval_reapOver now _ c

theorem entry_unique_of_nodup (m : List (String × cacheEntry)) (key : String)
    (e : cacheEntry) (hnd : (mapKeys m).Nodup) (hl : mapLookup m key = some e)
    (p : String × cacheEntry) (hp : p ∈ m) (hk : p.1 = key) : p.2 = e := by
  obtain ⟨k, e2⟩ := p
  simp only at hk
  subst hk
  have h := mapLookup_of_mem m k e2 hnd hp
  rw [hl] at h
  exact (Option.some.inj h).symm

theorem reapEntry_items_of_nodup (now : Int) (c : Cache) (key : String)
    (hnd : (mapKeys c.items).Nodup) :
    (reapEntry now c key).items =
      c.items.filter (fun p => decide (p.1 ≠ key) || fresh now c.interval p.2) := by
  unfold reapEntry
  cases hl : mapLookup c.items key with
  | none =>
    have hk := (mapLookup_eq_none_iff c.items key).1 hl
    symm
    apply List.filter_eq_self.2
    intro p hp
    have hne : p.1 ≠ key := by
      intro h
      apply hk
      rw [← h]
      exact List.mem_map_of_mem Prod.fst hp
    simp [hne]
  | some e =>
    by_cases hs : Since now e.createdAt > c.interval
    · have hf : fresh now c.interval e = false := by
        simp only [fresh, decide_eq_false_iff_not, not_le]
        exact hs
      simp only [hs, if_true, mapDelete]
      apply List.filter_congr
      intro p hp
      by_cases hk : p.1 = key
      · have h2 := entry_unique_of_nodup c.items key e hnd hl p hp hk
        simp [hk, h2, hf]
      · simp [hk]
    · have hf : fresh now c.interval e = true := by
        simp only [fresh, decide_eq_true_eq]
        exact not_lt.1 hs
      simp only [hs, if_false]
      symm
      apply List.filter_eq_self.2
      intro p hp
      by_cases hk : p.1 = key
      · have h2 := entry_unique_of_nodup c.items key e hnd hl p hp hk
        simp [h2, hf]
      · simp [hk]

theorem nodup_reapEntry (now : Int) (c : Cache) (key : String)
    (hnd : (mapKeys c.items).Nodup) : (mapKeys (reapEntry now c key).items).Nodup := by
  rw [reapEntry_items_of_nodup now c key hnd]
  unfold mapKeys
  exact hnd.sublist ((List.filter_sublist c.items).map Prod.fst)

theorem reapOver_items_of_nodup (now : Int) (order : List String) (c : Cache)
    (hnd : (mapKeys c.items).Nodup) :
    (reapOver c now order).items =
      c.items.filter (fun p => decide (p.1 ∉ order) || fresh now c.interval p.2) := by
  induction order generalizing c with
  | nil => simp [reapOver]
  | cons key rest ih =>
    have h := ih (reapEntry now c key) (nodup_reapEntry now c key hnd)
    have h2 : reapOver c now (key :: rest) = reapOver (reapEntry now c key) now rest := rfl
    rw [h2, h, interval_reapEntry, reapEntry_items_of_nodup now c key hnd, List.filter_filter]
    apply List.filter_congr
    intro p _
    by_cases hk : p.1 = key
    · cases hf : fresh now c.interval p.2 <;> simp [hk, hf]
    · by_cases hr : p.1 ∈ rest
      · cases hf : fresh now c.interval p.2 <;> simp [hk, hr, hf]
      · simp [hk, hr]

theorem nodup_reapOver (now : Int) (order : List String) (c : Cache)
    (hnd : (mapKeys c.items).Nodup) : (mapKeys (reapOver c now order).items).Nodup := by
  rw [reapOver_items_of_nodup now order c hnd]
  unfold mapKeys
  exact hnd.sublist ((List.filter_sublist c.items).map Prod.fst)

/-! ## Lemmas on runs -/

theorem interval_step (c : Cache) (op : Op) : (step c op).interval = c.interval := by
  cases op with
  | add key val now => rfl
  | get key =>
    simp only [step, Cache.Get]
    split <;> rfl
  | reap now => exact interval_reapPass now c

theorem interval_run (ops : List Op) (c : Cache) : (run c ops).interval = c.interval := by
  induction ops generalizing c with
  | nil => rfl
  | cons op rest ih =>
    have h := ih (step c op)
    rw [interval_step] at h
    exact h

theorem get_state (c : Cache) (key : String) : (c.Get key).2 = c := by
  unfold Cache.Get
  split <;> rfl

theorem nodup_step (c : Cache) (op : Op) (hnd : (mapKeys c.items).Nodup) :
    (mapKeys (step c op).items).Nodup := by
  cases op with
  | add key val now => exact nodup_mapAssign c.items key _ hnd
  | get key =>
    simp only [step, get_state]
    exact hnd
  | reap now => exact nodup_reapOver now _ c hnd

theorem nodup_run (ops : List Op) (c : Cache) (hnd : (mapKeys c.items).Nodup) :
    (mapKeys (run c ops).items).Nodup := by
  induction ops generalizing c with
  | nil => exact hnd
  | cons op rest ih => exact ih (step c op) (nodup_step c op hnd)

theorem nodup_reachable (T : Int) (ops : List Op) :
    (mapKeys (run (NewCache T) ops).items).Nodup :=
  nodup_run ops (NewCache T) (by simp [NewCache, mapKeys])

theorem mapLookup_step_of_not_add (c : Cache) (op : Op) (k : String)
    (h : op.addsKey k = false) :
    mapLookup (step c op).items k = none ∨
      mapLookup (step c op).items k = mapLookup c.items k := by
  cases op with
  | add key val now =>
    simp only [Op.addsKey, decide_eq_false_iff_not] at h
    right
    exact mapLookup_assign_ne c.items key k _ (fun h2 => h h2.symm)
  | get key =>
    right
    simp only [step, get_state]
  | reap now =>
    simp only [step, mapLookup_reapPass]
    cases hl : mapLookup c.items k with
    | none => left; rfl
    | some e =>
      cases hf : fresh now c.interval e
      · left; simp [Option.filter, hf]
      · right; simp [Option.filter, hf]

theorem mapLookup_run_of_not_add (ops : List Op) (c : Cache) (k : String)
    (h : ops.all (fun op => !(op.addsKey k)) = true) :
    mapLookup (run c ops).items k = none ∨
      mapLookup (run c ops).items k = mapLookup c.items k := by
  induction ops generalizing c with
  | nil => right; rfl
  | cons op rest ih =>
    simp only [List.all_cons, Bool.and_eq_true, Bool.not_eq_true'] at h
    have h1 := ih (step c op) h.2
    have h2 := mapLookup_step_of_not_add c op k h.1
    have h3 : run c (op :: rest) = run (step c op) rest := rfl
    rw [h3]
    rcases h1 with h1 | h1
    · left; exact h1
    · rcases h2 with h2 | h2
      · left; rw [h1, h2]
      · right; rw [h1, h2]

theorem lastAdded_cons_of_not_add (k : String) (op : Op) (rest : List Op)
    (h : op.addsKey k = false) : lastAdded k (op :: rest) = lastAdded k rest := by
  cases hr : lastAdded k rest with
  | some v => simp [lastAdded, hr]
  | none =>
    cases op with
    | add key val now =>
      simp only [Op.addsKey, decide_eq_false_iff_not] at h
      simp [lastAdded, hr, h]
    | get key => simp [lastAdded, hr]
    | reap now => simp [lastAdded, hr]

theorem mapLookup_run_lastAdded (k : String) (ops : List Op) (c : Cache)
    (hns : ops.all (fun op => !(op.isReap)) = true) :
    (∀ v, lastAdded k ops = some v →
        ∃ e, mapLookup (run c ops).items k = some e ∧ e.val = v) ∧
      (lastAdded k ops = none → mapLookup (run c ops).items k = mapLookup c.items k) := by
  induction ops generalizing c with
  | nil =>
    constructor
    · intro v hv
      simp [lastAdded] at hv
    · intro _
      rfl
  | cons op rest ih =>
    simp only [List.all_cons, Bool.and_eq_true, Bool.not_eq_true'] at hns
    have h := ih (step c op) hns.2
    have hrun : run c (op :: rest) = run (step c op) rest := rfl
    rw [hrun]
    cases hr : lastAdded k rest with
    | some w =>
      constructor
      · intro v hv
        have hv2 : lastAdded k (op :: rest) = some w := by simp [lastAdded, hr]
        rw [hv2] at hv
        cases hv
        exact h.1 w hr
      · intro hn
        simp [lastAdded, hr] at hn
    | none =>
      have hl := h.2 hr
      rw [hl]
      cases op with
      | add key val now =>
        by_cases hk : key = k
        · constructor
          · intro v hv
            simp only [lastAdded, hr, hk, if_true, Option.some.injEq] at hv
            refine ⟨{ createdAt := now, val := val }, ?_, hv⟩
            simp only [step, Cache.Add, hk]
            exact mapLookup_assign_self c.items k _
          · intro hn
            simp [lastAdded, hr, hk] at hn
        · constructor
          · intro v hv
            simp [lastAdded, hr, hk] at hv
          · intro _
            exact mapLookup_assign_ne c.items key k _ (fun h2 => hk h2.symm)
      | get key =>
        constructor
        · intro v hv
          simp [lastAdded, hr] at hv
        · intro _
          simp only [step, get_state]
      | reap now => simp [Op.isReap] at hns

theorem get_eq_expectedGet (T : Int) (k : String) (ops : List Op)
    (hns : ops.all (fun op => !(op.isReap)) = true) :
    ((run (NewCache T) ops).Get k).1 = expectedGet (lastAdded k ops) := by
  have h := mapLookup_run_lastAdded k ops (NewCache T) hns
  cases hr : lastAdded k ops with
  | some v =>
    obtain ⟨e, he, hv⟩ := h.1 v hr
    simp [Cache.Get, he, hv, expectedGet]
  | none =>
    have h2 := h.2 hr
    have h3 : mapLookup (run (NewCache T) ops).items k = none := by
      rw [h2]; rfl
    simp [Cache.Get, h3, expectedGet]

theorem lastAdded_project (k : String) (i : Nat) (tr : List (Nat × Op))
    (h : ∀ a ∈ tr, a.1 ≠ i → a.2.addsKey k = false) :
    lastAdded k (tr.map Prod.snd) = lastAdded k (project i tr) := by
  induction tr with
  | nil => rfl
  | cons a rest ih =>
    have ih2 := ih (fun b hb => h b (List.mem_cons_of_mem _ hb))
    by_cases ha : a.1 = i
    · have hp : project i (a :: rest) = a.2 :: project i rest := by
        simp [project, ha]
      rw [hp]
      simp only [List.map_cons, lastAdded, ih2]
    · have hp : project i (a :: rest) = project i rest := by
        simp [project, ha]
      rw [hp, List.map_cons,
        lastAdded_cons_of_not_add k a.2 _ (h a (List.mem_cons_self _ _) ha)]
      exact ih2

theorem not_add_of_disjointKeys (k : String) (i : Nat) (tr : List (Nat × Op))
    (hdis : disjointKeys (tr ++ [(i, Op.get k)]) = true) :
    ∀ a ∈ tr, a.1 ≠ i → a.2.addsKey k = false := by
  intro a ha hne
  simp only [disjointKeys, List.all_eq_true] at hdis
  have h := hdis a (List.mem_append_left _ ha) (i, Op.get k)
    (List.mem_append_right _ (List.mem_singleton_self _))
  obtain ⟨j, op⟩ := a
  cases op with
  | add key val now =>
    simp only [Op.key, Op.addsKey] at h ⊢
    simp only [ne_eq] at hne
    simpa [hne] using h
  | get key => rfl
  | reap now => rfl

theorem run_append (c : Cache) (a b : List Op) : run c (a ++ b) = run (run c a) b := by
  simp [run, List.foldl_append]

theorem sweepCount_append (a b : List Op) :
    sweepCount (a ++ b) = sweepCount a + sweepCount b := by
  induction a with
  | nil => simp [sweepCount]
  | cons op rest ih =>
    cases op with
    | add key val now => simpa [sweepCount] using ih
    | get key => simpa [sweepCount] using ih
    | reap now =>
      have hc : (Op.reap now :: rest) ++ b = Op.reap now :: (rest ++ b) := rfl
      rw [hc]
      simp only [sweepCount, ih]
      omega

theorem onSchedule_append (c0 T : Int) (a b : List Op) (s : Nat) :
    onSchedule c0 T s (a ++ b) =
      (onSchedule c0 T s a && onSchedule c0 T (s + sweepCount a) b) := by
  induction a generalizing s with
  | nil => simp [onSchedule, sweepCount]
  | cons op rest ih =>
    cases op with
    | add key val now =>
      have hc : (Op.add key val now :: rest) ++ b = Op.add key val now :: (rest ++ b) := rfl
      rw [hc]
      simp only [onSchedule, sweepCount, ih, Bool.and_assoc]
    | get key =>
      have hc : (Op.get key :: rest) ++ b = Op.get key :: (rest ++ b) := rfl
      rw [hc]
      simp only [onSchedule, sweepCount, ih]
    | reap now =>
      have hc : (Op.reap now :: rest) ++ b = Op.reap now :: (rest ++ b) := rfl
      have h : s + (sweepCount rest + 1) = s + 1 + sweepCount rest := by omega
      rw [hc]
      simp only [onSchedule, sweepCount, ih, Bool.and_assoc, h]

theorem mapLookup_run_kept (T : Int) (k : String) (e : cacheEntry) (post : List Op)
    (c : Cache) (hT : c.interval = T) (hl : mapLookup c.items k = some e)
    (hno : post.all (fun op => !(op.addsKey k)) = true)
    (hsw : post.all (Op.noReapAfter (e.createdAt + T)) = true) :
    mapLookup (run c post).items k = some e := by
  induction post generalizing c with
  | nil => exact hl
  | cons op rest ih =>
    simp only [List.all_cons, Bool.and_eq_true, Bool.not_eq_true'] at hno hsw
    have hrun : run c (op :: rest) = run (step c op) rest := rfl
    rw [hrun]
    apply ih (step c op) (by rw [interval_step]; exact hT) _ hno.2 hsw.2
    cases op with
    | add key val now =>
      have h := hno.1
      simp only [Op.addsKey, decide_eq_false_iff_not] at h
      rw [← hl]
      exact mapLookup_assign_ne c.items key k _ (fun h2 => h h2.symm)
    | get key => simpa only [step, get_state] using hl
    | reap now =>
      have h := hsw.1
      simp only [Op.noReapAfter, decide_eq_true_eq] at h
      have hf : fresh now c.interval e = true := by
        simp only [fresh, Since, decide_eq_true_eq, hT]
        linarith
      simp [step, mapLookup_reapPass, hl, Option.filter, hf]

theorem createdAt_bound_run (c0 T : Int) (hT : 0 < T) (ops : List Op) (s : Nat) (c : Cache)
    (hc : c.interval = T) (hs : onSchedule c0 T s ops = true)
    (hinv : ∀ k e, mapLookup c.items k = some e → c0 + (s : Int) * T ≤ e.createdAt + T) :
    ∀ k e, mapLookup (run c ops).items k = some e →
      c0 + ((s + sweepCount ops : Nat) : Int) * T ≤ e.createdAt + T := by
  induction ops generalizing s c with
  | nil =>
    intro k e he
    simpa [sweepCount] using hinv k e he
  | cons op rest ih =>
    have hrun : run c (op :: rest) = run (step c op) rest := rfl
    rw [hrun]
    have hc2 : (step c op).interval = T := by rw [interval_step]; exact hc
    cases op with
    | add key val now =>
      simp only [onSchedule, Bool.and_eq_true, decide_eq_true_eq] at hs
      have h := ih s (step c (Op.add key val now)) hc2 hs.2 (by
        intro k e he
        by_cases hk : k = key
        · subst hk
          simp only [step, Cache.Add, mapLookup_assign_self, Option.some.injEq] at he
          subst he
          simp only
          linarith [hs.1.1]
        · simp only [step, Cache.Add, mapLookup_assign_ne c.items key k _ hk] at he
          exact hinv k e he)
      simpa [sweepCount] using h
    | get key =>
      simp only [onSchedule] at hs
      have h := ih s (step c (Op.get key)) hc2 hs (by
        intro k e he
        simp only [step, get_state] at he
        exact hinv k e he)
      simpa [sweepCount] using h
    | reap now =>
      simp only [onSchedule, Bool.and_eq_true, decide_eq_true_eq] at hs
      have h := ih (s + 1) (step c (Op.reap now)) hc2 hs.2 (by
        intro k e he
        simp only [step, mapLookup_reapPass] at he
        cases hl : mapLookup c.items k with
        | none => simp [hl, Option.filter] at he
        | some e2 =>
          cases hf : fresh now c.interval e2 with
          | false => simp [hl, Option.filter, hf] at he
          | true =>
            simp only [hl, Option.filter, hf, if_true, Option.some.injEq] at he
            subst he
            simp only [fresh, Since, decide_eq_true_eq, hc] at hf
            push_cast
            linarith [hs.1])
      have h2 : s + sweepCount (Op.reap now :: rest) = s + 1 + sweepCount rest := by
        simp only [sweepCount]; omega
      rw [h2]
      exact h

theorem evictedAt_on_schedule (c0 T : Int) (k : String) (v : Bytes) (t0 : Int)
    (post : List Op) (s : Nat) (c : Cache) (hc : c.interval = T)
    (hl : mapLookup c.items k = some { createdAt := t0, val := v })
    (hs : onSchedule c0 T s post = true)
    (hno : post.all (fun op => !(op.addsKey k)) = true)
    (hlo : c0 + (s : Int) * T ≤ t0 + T)
    (hlong : t0 + T < c0 + ((s + sweepCount post : Nat) : Int) * T) :
    ∃ m : Nat, evictedAt k c post = some (c0 + ((m : Int) + 1) * T) ∧
      c0 + (m : Int) * T ≤ t0 + T ∧ t0 + T < c0 + ((m : Int) + 1) * T := by
  induction post generalizing s c with
  | nil =>
    simp only [sweepCount, Nat.add_zero] at hlong
    linarith
  | cons op rest ih =>
    simp only [List.all_cons, Bool.and_eq_true, Bool.not_eq_true'] at hno
    cases op with
    | add key val now =>
      simp only [onSchedule, Bool.and_eq_true, decide_eq_true_eq] at hs
      have h := hno.1
      simp only [Op.addsKey, decide_eq_false_iff_not] at h
      have hl2 : mapLookup (step c (Op.add key val now)).items k
          = some { createdAt := t0, val := v } := by
        rw [← hl]
        exact mapLookup_assign_ne c.items key k _ (fun h2 => h h2.symm)
      have hc2 : (step c (Op.add key val now)).interval = T := by
        rw [interval_step]; exact hc
      simp only [sweepCount] at hlong
      simpa only [evictedAt] using ih s _ hc2 hl2 hs.2 hno.2 hlo hlong
    | get key =>
      simp only [onSchedule] at hs
      have hl2 : mapLookup (step c (Op.get key)).items k
          = some { createdAt := t0, val := v } := by
        simpa only [step, get_state] using hl
      have hc2 : (step c (Op.get key)).interval = T := by
        rw [interval_step]; exact hc
      simp only [sweepCount] at hlong
      simpa only [evictedAt] using ih s _ hc2 hl2 hs hno.2 hlo hlong
    | reap now =>
      simp only [onSchedule, Bool.and_eq_true, decide_eq_true_eq] at hs
      obtain ⟨hnow, hs2⟩ := hs
      subst hnow
      have hlk := mapLookup_reapPass (c0 + ((s : Int) + 1) * T) c k
      rw [hl] at hlk
      cases hf : fresh (c0 + ((s : Int) + 1) * T) c.interval { createdAt := t0, val := v } with
      | false =>
        have hnone : mapLookup (c.reapPass (c0 + ((s : Int) + 1) * T)).items k = none := by
          rw [hlk]; simp [Option.filter, hf]
        refine ⟨s, ?_, hlo, ?_⟩
        · simp [evictedAt, hl, hnone]
        · simp only [fresh, Since, decide_eq_false_iff_not, not_le, hc] at hf
          linarith
      | true =>
        have hsome : mapLookup (c.reapPass (c0 + ((s : Int) + 1) * T)).items k
            = some { createdAt := t0, val := v } := by
          rw [hlk]; simp [Option.filter, hf]
        have hc2 : (c.reapPass (c0 + ((s : Int) + 1) * T)).interval = T := by
          rw [interval_reapPass]; exact hc
        have hlo2 : c0 + ((s + 1 : Nat) : Int) * T ≤ t0 + T := by
          simp only [fresh, Since, decide_eq_true_eq, hc] at hf
          push_cast
          linarith
        have hcount : s + sweepCount (Op.reap (c0 + ((s : Int) + 1) * T) :: rest)
            = s + 1 + sweepCount rest := by
          simp only [sweepCount]; omega
        rw [hcount] at hlong
        have h := ih (s + 1) (c.reapPass (c0 + ((s : Int) + 1) * T)) hc2 hsome hs2 hno.2
          hlo2 hlong
        simpa [evictedAt, hl, hsome] using h

/-! ## The claims -/

/-- C1 (round trip): in every cache state reachable from `NewCache` by any
sequence of steps, `Add(k, v)` immediately followed by `Get(k)` returns `(v, true)`. -/
theorem add_get_round_trip (T : Int) (ops : List Op) (k : String) (v : Bytes) (now : Int) :
    (((run (NewCache T) ops).Add k v now).Get k).1 = (v, true) := by
  simp [Cache.Get, Cache.Add, mapLookup_assign_self]

/-- C2 (overwrite): after `Add(k, v1)` at `t1` and then `Add(k, v2)` at `t2`,
whatever steps ran in between, the map holds exactly one entry for `k`, with
value `v2` and `createdAt = t2`; `Get(k)` returns `(v2, true)` and the age of
the entry at any clock reading is counted from `t2`. -/
theorem add_add_overwrite (c : Cache) (mid : List Op) (k : String) (v1 v2 : Bytes)
    (t1 t2 : Int) :
    ((run (c.Add k v1 t1) mid).Add k v2 t2).items.filter (fun p => decide (p.1 = k))
        = [(k, { createdAt := t2, val := v2 })] ∧
      (((run (c.Add k v1 t1) mid).Add k v2 t2).Get k).1 = (v2, true) ∧
      ∀ e, mapLookup ((run (c.Add k v1 t1) mid).Add k v2 t2).items k = some e →
        e.createdAt = t2 ∧ ∀ now, Since now e.createdAt = now - t2 := by
  refine ⟨?_, ?_, ?_⟩
  · simp only [Cache.Add, mapAssign, mapDelete, List.filter_cons, decide_True, if_true,
      List.filter_filter]
    congr 1
    apply List.filter_eq_nil_iff.2
    intro p _
    simp
  · simp [Cache.Get, Cache.Add, mapLookup_assign_self]
  · intro e he
    simp only [Cache.Add, mapLookup_assign_self, Option.some.injEq] at he
    subst he
    exact ⟨rfl, fun _ => rfl⟩

/-- C3 (absence): after any sequence of `Add`, `Get` and sweep steps on a fresh
cache in which `k` is never passed to `Add`, `Get(k)` returns `(nil, false)`;
and in every reachable state `Get(k)` returns `(e.val, true)` when the map
holds an entry `e` for `k`, and `(nil, false)` when it holds none. -/
theorem get_absent_present (T : Int) (ops : List Op) (k : String) :
    (ops.all (fun op => !(op.addsKey k)) = true →
        ((run (NewCache T) ops).Get k).1 = (none, false)) ∧
      (∀ e, (k, e) ∈ (run (NewCache T) ops).items →
        ((run (NewCache T) ops).Get k).1 = (e.val, true)) ∧
      ((∀ e, (k, e) ∉ (run (NewCache T) ops).items) →
        ((run (NewCache T) ops).Get k).1 = (none, false)) := by
  refine ⟨?_, ?_, ?_⟩
  · intro h
    have h1 := mapLookup_run_of_not_add ops (NewCache T) k h
    have h2 : mapLookup (run (NewCache T) ops).items k = none := by
      rcases h1 with h1 | h1
      · exact h1
      · rw [h1]; rfl
    simp [Cache.Get, h2]
  · intro e he
    have h := mapLookup_of_mem _ k e (nodup_reachable T ops) he
    simp [Cache.Get, h]
  · intro h
    cases hl : mapLookup (run (NewCache T) ops).items k with
    | none => simp [Cache.Get, hl]
    | some e => exact absurd (mapLookup_mem _ k e hl) (h e)

/-- Witness for C3: a run with an `Add` of another key, a `Get` and a sweep. -/
theorem get_absent_present_witness :
    [Op.add "a" (some [1]) 0, Op.get "b", Op.reap 7].all (fun op => !(op.addsKey "b")) = true ∧
      ((run (NewCache 5) [Op.add "a" (some [1]) 0, Op.get "b", Op.reap 7]).Get "b").1
        = (none, false) :=
  ⟨by decide,
   (get_absent_present 5 [Op.add "a" (some [1]) 0, Op.get "b", Op.reap 7] "b").1 (by decide)⟩

/-- C9 (no mutation): `Get(k)` leaves the cache state (entry mapping and ttl) as
it was, for every state and key; and any number of successive `Get(k)` calls on
a key that is not in the map all return `(nil, false)` and leave the state as it was. -/
theorem get_does_not_mutate (c : Cache) (k : String) :
    (c.Get k).2 = c ∧
      (k ∉ mapKeys c.items →
        ∀ n, getRepeat c k n = (List.replicate n (none, false), c)) := by
  refine ⟨get_state c k, ?_⟩
  intro hk n
  have hl := (mapLookup_eq_none_iff c.items k).2 hk
  induction n with
  | zero => rfl
  | succ n ih =>
    have h1 : c.Get k = ((none, false), c) := by simp [Cache.Get, hl]
    simp only [getRepeat, h1, ih, List.replicate_succ]

/-- Witness for C9: three misses on a cache that holds another key. -/
theorem get_does_not_mutate_witness :
    "b" ∉ mapKeys ((NewCache 5).Add "a" (some [1]) 0).items ∧
      getRepeat ((NewCache 5).Add "a" (some [1]) 0) "b" 3
        = (List.replicate 3 (none, false), (NewCache 5).Add "a" (some [1]) 0) :=
  ⟨by decide,
   (get_does_not_mutate ((NewCache 5).Add "a" (some [1]) 0) "b").2 (by decide) 3⟩

/-- C10 (sweep pass): on a map with one entry per key (every Go map is one, and
so is every state reached from `NewCache`, see `nodup_reachable`), a sweep pass
at clock reading `now`, visiting the keys in any order, leaves exactly the
entries with `now - createdAt ≤ interval`, unchanged and in place (an entry of
age exactly `interval` is kept, every older one is deleted, none is added), and
leaves `interval` as it was. -/
theorem reap_pass_keeps_exactly_fresh (c : Cache) (now : Int) (order : List String)
    (hnd : (mapKeys c.items).Nodup) (hord : order.Perm (mapKeys c.items)) :
    (reapOver c now order).items =
        c.items.filter (fun p => decide (now - p.2.createdAt ≤ c.interval)) ∧
      (reapOver c now order).interval = c.interval := by
  refine ⟨?_, interval_reapOver now order c⟩
  rw [reapOver_items_of_nodup now order c hnd]
  apply List.filter_congr
  intro p hp
  have hmem : p.1 ∈ order := hord.mem_iff.2 (List.mem_map_of_mem Prod.fst hp)
  simp [hmem, fresh, Since]

/-- Witness for C10: ttl 5, pass at 10; ages 10, 2 and exactly 5. -/
theorem reap_pass_keeps_exactly_fresh_witness :
    (mapKeys (Cache.mk [("a", ⟨0, some [1]⟩), ("b", ⟨8, none⟩), ("c", ⟨5, some []⟩)] 5).items).Nodup ∧
      ["c", "a", "b"].Perm
        (mapKeys (Cache.mk [("a", ⟨0, some [1]⟩), ("b", ⟨8, none⟩), ("c", ⟨5, some []⟩)] 5).items) ∧
      (reapOver (Cache.mk [("a", ⟨0, some [1]⟩), ("b", ⟨8, none⟩), ("c", ⟨5, some []⟩)] 5) 10
          ["c", "a", "b"]).items = [("b", ⟨8, none⟩), ("c", ⟨5, some []⟩)] :=
  ⟨by decide, by decide,
   (reap_pass_keeps_exactly_fresh
      (Cache.mk [("a", ⟨0, some [1]⟩), ("b", ⟨8, none⟩), ("c", ⟨5, some []⟩)] 5) 10
      ["c", "a", "b"] (by decide) (by decide)).1⟩

/-- C7, counterexample: with `ttl = 0` the sweep goroutine panics when it creates
its ticker, before any tick. -/
theorem reapLoop_zero_ttl_panics :
    (NewCache 0).reapLoop [] = Except.error "non-positive interval for NewTicker" ∧
      ¬ ∃ c, (NewCache 0).reapLoop [] = Except.ok c := by
  constructor
  · rfl
  · rintro ⟨c, hc⟩
    have h : (NewCache 0).reapLoop [] = Except.error "non-positive interval for NewTicker" :=
      rfl
    rw [h] at hc
    cases hc

/-- C7, amended: for every duration `ttl`, `NewCache(ttl)` yields a cache with an
empty entry mapping and `interval = ttl`; when `ttl` is positive the sweep
goroutine creates its ticker and runs through any sequence of ticks without
failing; when `ttl` is zero or negative it panics in `time.NewTicker`. -/
theorem newCache_reapLoop (ttl : Int) :
    (NewCache ttl).items = [] ∧ (NewCache ttl).interval = ttl ∧
      (0 < ttl → ∀ ticks, ∃ c, (NewCache ttl).reapLoop ticks = Except.ok c ∧
        c = run (NewCache ttl) (ticks.map Op.reap)) ∧
      (ttl ≤ 0 → ∀ ticks, (NewCache ttl).reapLoop ticks =
        Except.error "non-positive interval for NewTicker") := by
  refine ⟨rfl, rfl, ?_, ?_⟩
  · intro h ticks
    have h2 : ¬ ttl ≤ 0 := not_le.2 h
    refine ⟨run (NewCache ttl) (ticks.map Op.reap), ?_, rfl⟩
    simp only [Cache.reapLoop, NewTicker, NewCache, h2, if_false, run, List.foldl_map]
    rfl
  · intro h ticks
    simp [Cache.reapLoop, NewTicker, NewCache, h]

/-- Witness for C7: ttl 5 and two ticks. -/
theorem newCache_reapLoop_witness :
    (0 : Int) < 5 ∧ ∃ c, (NewCache 5).reapLoop [5, 10] = Except.ok c ∧
      c = run (NewCache 5) ([5, 10].map Op.reap) :=
  ⟨by decide, (newCache_reapLoop 5).2.2.1 (by decide) [5, 10]⟩

/-- C8 (isolation on disjoint keys): `Add(k1, v)` leaves the entry of every
other key as it was; and in every interleaving, without sweep pass, of the
atomic `Add`/`Get` steps of callers that work on pairwise disjoint key sets, a
`Get(k)` by caller `i` returns the value of the most recent preceding `Add(k)`
with `true` (or `(nil, false)` when there was none), which is the most recent
`Add(k)` of caller `i` itself. -/
theorem isolation_disjoint_keys (T : Int) (tr : List (Nat × Op)) (i : Nat) (k : String)
    (hns : tr.all (fun a => !(a.2.isReap)) = true)
    (hdis : disjointKeys (tr ++ [(i, Op.get k)]) = true) :
    (∀ (c : Cache) (k1 k2 : String) (v : Bytes) (now : Int), k2 ≠ k1 →
        mapLookup (c.Add k1 v now).items k2 = mapLookup c.items k2) ∧
      ((run (NewCache T) (tr.map Prod.snd)).Get k).1
        = expectedGet (lastAdded k (tr.map Prod.snd)) ∧
      lastAdded k (tr.map Prod.snd) = lastAdded k (project i tr) := by
  refine ⟨?_, ?_, ?_⟩
  · intro c k1 k2 v now hne
    exact mapLookup_assign_ne c.items k1 k2 _ hne
  · apply get_eq_expectedGet
    rw [List.all_eq_true] at hns ⊢
    intro op hop
    obtain ⟨a, ha, rfl⟩ := List.mem_map.1 hop
    exact hns a ha
  · exact lastAdded_project k i tr (not_add_of_disjointKeys k i tr hdis)

/-- Witness for C8: callers 0 and 1 interleaved on keys `a` and `b`. -/
theorem isolation_disjoint_keys_witness :
    ([(0, Op.add "a" (some [1]) 0), (1, Op.add "b" (some [2]) 1), (0, Op.get "a"),
        (1, Op.add "b" (some [3]) 2), (0, Op.add "a" (some [4]) 3)].all
          (fun a => !(a.2.isReap)) = true) ∧
      disjointKeys ([(0, Op.add "a" (some [1]) 0), (1, Op.add "b" (some [2]) 1),
        (0, Op.get "a"), (1, Op.add "b" (some [3]) 2), (0, Op.add "a" (some [4]) 3)]
          ++ [(1, Op.get "b")]) = true ∧
      ((run (NewCache 5) ([(0, Op.add "a" (some [1]) 0), (1, Op.add "b" (some [2]) 1),
        (0, Op.get "a"), (1, Op.add "b" (some [3]) 2),
        (0, Op.add "a" (some [4]) 3)].map Prod.snd)).Get "b").1 = (some [3], true) :=
  ⟨by decide, by decide,
   (isolation_disjoint_keys 5 [(0, Op.add "a" (some [1]) 0), (1, Op.add "b" (some [2]) 1),
      (0, Op.get "a"), (1, Op.add "b" (some [3]) 2), (0, Op.add "a" (some [4]) 3)] 1 "b"
      (by decide) (by decide)).2.1⟩

/-- C5 (no early eviction): in a cache with ttl `T`, an entry added for `k` at
`t0` and not overwritten is still returned by `Get(k)` after any steps whose
sweep passes all ran at clock readings up to `t0 + T`, in particular at every
time before `t0 + T`: no pass deletes an entry of age at most `T`. -/
theorem no_early_eviction (T : Int) (pre post : List Op) (k : String) (v : Bytes) (t0 : Int)
    (hno : post.all (fun op => !(op.addsKey k)) = true)
    (hsw : post.all (Op.noReapAfter (t0 + T)) = true) :
    ((run ((run (NewCache T) pre).Add k v t0) post).Get k).1 = (v, true) := by
  have h := mapLookup_run_kept T k { createdAt := t0, val := v } post
    ((run (NewCache T) pre).Add k v t0)
    (by
      have h1 : ((run (NewCache T) pre).Add k v t0).interval
          = (run (NewCache T) pre).interval := rfl
      rw [h1, interval_run]; rfl)
    (by simp [Cache.Add, mapLookup_assign_self]) hno hsw
  simp [Cache.Get, h]

/-- Witness for C5: ttl 10, entry added at 3, passes at 10 and at 13 (age exactly 10). -/
theorem no_early_eviction_witness :
    [Op.reap 10, Op.add "b" none 11, Op.get "a", Op.reap 13].all
        (fun op => !(op.addsKey "a")) = true ∧
      [Op.reap 10, Op.add "b" none 11, Op.get "a", Op.reap 13].all
        (Op.noReapAfter (3 + 10)) = true ∧
      ((run ((run (NewCache 10) [Op.add "a" none 1]).Add "a" (some [7]) 3)
        [Op.reap 10, Op.add "b" none 11, Op.get "a", Op.reap 13]).Get "a").1
          = (some [7], true) :=
  ⟨by decide, by decide,
   no_early_eviction 10 [Op.add "a" none 1]
     [Op.reap 10, Op.add "b" none 11, Op.get "a", Op.reap 13] "a" (some [7]) 3
     (by decide) (by decide)⟩

/-- C4 (bounded staleness): a cache is constructed at clock reading `c0` with
ttl `T > 0` and its sweep passes run exactly at the readings `c0 + n * T`.
After any steps on that schedule, at every clock reading `now` at which no pass
is overdue, every entry present has `now - createdAt ≤ 2 * T`; and once every
pass due by `t0 + 2 * T` has run, `Get` returns `(nil, false)` for a key added
at `t0` and not added again. -/
theorem bounded_staleness (c0 T : Int) (ops : List Op) (hT : 0 < T)
    (hs : onSchedule c0 T 0 ops = true) :
    (∀ now, now ≤ c0 + ((sweepCount ops : Int) + 1) * T →
        ∀ k e, mapLookup (run (NewCache T) ops).items k = some e →
          Since now e.createdAt ≤ 2 * T) ∧
      (∀ pre k v t0 post, ops = pre ++ Op.add k v t0 :: post →
        post.all (fun op => !(op.addsKey k)) = true →
        t0 + 2 * T < c0 + ((sweepCount ops : Int) + 1) * T →
          ((run (NewCache T) ops).Get k).1 = (none, false)) := by
  have hinv := createdAt_bound_run c0 T hT ops 0 (NewCache T) rfl hs (by
    intro k e he
    simp [NewCache, mapLookup] at he)
  simp only [Nat.zero_add] at hinv
  constructor
  · intro now hnow k e he
    have h := hinv k e he
    simp only [Since]
    linarith
  · intro pre k v t0 post hops hno hlate
    cases hl : mapLookup (run (NewCache T) ops).items k with
    | none => simp [Cache.Get, hl]
    | some e =>
      exfalso
      have h := hinv k e hl
      have hrun : run (NewCache T) ops = run ((run (NewCache T) pre).Add k v t0) post := by
        rw [hops, run_append]; rfl
      rw [hrun] at hl
      have h2 := mapLookup_run_of_not_add post ((run (NewCache T) pre).Add k v t0) k hno
      rw [hl] at h2
      rcases h2 with h2 | h2
      · cases h2
      · simp only [Cache.Add, mapLookup_assign_self, Option.some.injEq] at h2
        subst h2
        simp only at h
        linarith

/-- Witness for C4: constructed at 0 with ttl 10; `a` is added at 3, passes run at 10, 20. -/
theorem bounded_staleness_witness :
    (0 : Int) < 10 ∧
      onSchedule 0 10 0 [Op.add "a" (some [1]) 3, Op.reap 10, Op.add "b" none 10,
        Op.reap 20, Op.get "a"] = true ∧
      ((run (NewCache 10) [Op.add "a" (some [1]) 3, Op.reap 10, Op.add "b" none 10,
        Op.reap 20, Op.get "a"]).Get "a").1 = (none, false) :=
  ⟨by decide, by decide,
   (bounded_staleness 0 10 [Op.add "a" (some [1]) 3, Op.reap 10, Op.add "b" none 10,
      Op.reap 20, Op.get "a"] (by decide) (by decide)).2 [] "a" (some [1]) 3
      [Op.reap 10, Op.add "b" none 10, Op.reap 20, Op.get "a"] rfl (by decide) (by decide)⟩

/-- C6, counterexample: constructed at 0 with ttl 10, passes at 10, 20, 30; an
entry added at the tick 10 survives the pass at 20 (age exactly 10) and is
deleted by the pass at 30: its lifetime is 20, which is not below `2 * ttl`. -/
theorem lifetime_on_tick_is_two_ttl :
    onSchedule 0 10 0 ([Op.reap 10] ++ Op.add "a" (some [1]) 10 :: [Op.reap 20, Op.reap 30])
        = true ∧
      evictedAt "a" ((run (NewCache 10) [Op.reap 10]).Add "a" (some [1]) 10)
        [Op.reap 20, Op.reap 30] = some 30 ∧
      ¬ ((30 : Int) - 10 < 2 * 10) := by
  decide

/-- C6, amended: a cache is constructed at clock reading `c0` with ttl `T > 0`
and its sweep passes run exactly at the readings `c0 + n * T`. An entry added
at `t0` and not added again is deleted by a pass, at a reading `τ`, as soon as
the run reaches a pass later than `t0 + T`; its lifetime `τ - t0` is more than
`T` and at most `2 * T`, and it is exactly `2 * T` when and only when `t0` is
itself one of the readings `c0 + n * T`. -/
theorem lifetime_bounds (c0 T : Int) (pre post : List Op) (k : String) (v : Bytes)
    (t0 : Int) (hT : 0 < T)
    (hs : onSchedule c0 T 0 (pre ++ Op.add k v t0 :: post) = true)
    (hno : post.all (fun op => !(op.addsKey k)) = true)
    (hlong : t0 + T < c0 + (sweepCount (pre ++ Op.add k v t0 :: post) : Int) * T) :
    ∃ τ, evictedAt k ((run (NewCache T) pre).Add k v t0) post = some τ ∧
      T < τ - t0 ∧ τ - t0 ≤ 2 * T ∧
      (τ - t0 = 2 * T ↔ ∃ n : Nat, t0 = c0 + (n : Int) * T) := by
  rw [onSchedule_append] at hs
  simp only [Nat.zero_add, onSchedule, Bool.and_eq_true, decide_eq_true_eq] at hs
  obtain ⟨_, ⟨hlo, _⟩, hpost⟩ := hs
  rw [sweepCount_append] at hlong
  simp only [sweepCount] at hlong
  have hc : ((run (NewCache T) pre).Add k v t0).interval = T := by
    have h1 : ((run (NewCache T) pre).Add k v t0).interval
        = (run (NewCache T) pre).interval := rfl
    rw [h1, interval_run]; rfl
  have hl : mapLookup ((run (NewCache T) pre).Add k v t0).items k
      = some { createdAt := t0, val := v } := by
    simp [Cache.Add, mapLookup_assign_self]
  obtain ⟨m, hev, hm1, hm2⟩ := evictedAt_on_schedule c0 T k v t0 post (sweepCount pre)
    ((run (NewCache T) pre).Add k v t0) hc hl hpost hno (by linarith) hlong
  have hs0 : (0 : Int) ≤ (sweepCount pre : Int) * T :=
    mul_nonneg (Int.ofNat_nonneg _) (le_of_lt hT)
  refine ⟨c0 + ((m : Int) + 1) * T, hev, by linarith, by linarith, ?_⟩
  constructor
  · intro h
    cases m with
    | zero =>
      exfalso
      push_cast at h
      linarith
    | succ n =>
      refine ⟨n, ?_⟩
      push_cast at h
      linarith
  · rintro ⟨n, hn⟩
    have h1 : (m : Int) * T ≤ ((n : Int) + 1) * T := by linarith
    have h2 : ((n : Int) + 1) * T < ((m : Int) + 1) * T := by linarith
    have h3 : (m : Int) ≤ (n : Int) + 1 := le_of_mul_le_mul_right h1 hT
    have h4 : (n : Int) + 1 < (m : Int) + 1 := lt_of_mul_lt_mul_right h2 (le_of_lt hT)
    have h5 : (m : Int) = (n : Int) + 1 := by omega
    rw [hn, h5]
    ring

/-- Witness for C6: constructed at 0 with ttl 10; added at 3, deleted by the pass at 20. -/
theorem lifetime_bounds_witness :
    (0 : Int) < 10 ∧
      onSchedule 0 10 0 ([] ++ Op.add "a" (some [1]) 3 :: [Op.reap 10, Op.get "a", Op.reap 20])
        = true ∧
      ∃ τ, evictedAt "a" ((run (NewCache 10) []).Add "a" (some [1]) 3)
          [Op.reap 10, Op.get "a", Op.reap 20] = some τ ∧
        10 < τ - 3 ∧ τ - 3 ≤ 2 * 10 ∧
        (τ - 3 = 2 * 10 ↔ ∃ n : Nat, (3 : Int) = 0 + (n : Int) * 10) :=
  ⟨by decide, by decide,
   lifetime_bounds 0 10 [] [Op.reap 10, Op.get "a", Op.reap 20] "a" (some [1]) 3
     (by decide) (by decide) (by decide) (by decide)⟩

end Pokecache
